import Mathlib

/-!
Verification of the enum/pattern-matching core of the `rustEnums` repository
(src/src/main.rs): C-style enums (`Ordering`, `HttpStatus`), enums with data
(`TimeUnit`, `RoughTime`), the JSON-like recursive value type (`Json`), and
the generic `BinaryTree` container.

Shallow embedding conventions: Rust `i32` is modelled as `Int` (the only
operations used on it are comparisons, which cannot overflow), `u32` payloads
and discriminants as `Nat`, `&'static str` as `String`.  `Box<T>` is an
owning indirection with no semantic content, so boxed payloads are inlined
into the constructor that carries them.  Operations that the source file only
announces (the binary tree's `add`/lookup/traversal, structural equality on
`Json`) are modelled from the specification and marked as such in their doc
comments.
-/

namespace RustEnums

/-- The C-style enum `Ordering` from src/src/main.rs lines 19-23:
variants Less, Equal, Greater, no explicit discriminants. -/
inductive Ordering : Type where
  | Less : Ordering
  | Equal : Ordering
  | Greater : Ordering
deriving DecidableEq

/-- Rust assigns discriminants of a C-style enum without explicit values
starting at 0, incrementing in declaration order (stated in the source
comments); this is the value `v as i32` produces for `Ordering`. -/
def Ordering.discriminant : Ordering → Nat
  | .Less => 0
  | .Equal => 1
  | .Greater => 2

/-- The function `compare` from src/src/main.rs lines 28-36:
if n < m then Less, else if n > m then Greater, else Equal. -/
def compare (n m : Int) : Ordering :=
  if n < m then Ordering.Less
  else if n > m then Ordering.Greater
  else Ordering.Equal

/-- The C-style enum `HttpStatus` from src/src/main.rs lines 64-69 with
explicit discriminants Ok = 200, NotModified = 304, NotFound = 404. -/
inductive HttpStatus : Type where
  | Ok : HttpStatus
  | NotModified : HttpStatus
  | NotFound : HttpStatus
deriving DecidableEq

/-- The value produced by casting an `HttpStatus` to an integer
(`HttpStatus::Ok as i32 == 200` is asserted in the source); each variant
maps to its explicitly assigned code. -/
def HttpStatus.toCode : HttpStatus → Nat
  | .Ok => 200
  | .NotModified => 304
  | .NotFound => 404

/-- The checked conversion `http_status_from_u32` from src/src/main.rs
lines 84-92: match on 200, 304, 404, wildcard arm returns None. -/
def http_status_from_u32 (n : Nat) : Option HttpStatus :=
  match n with
  | 200 => some HttpStatus.Ok
  | 304 => some HttpStatus.NotModified
  | 404 => some HttpStatus.NotFound
  | _ => none

/-- The enum `TimeUnit` from src/src/main.rs lines 97-100, with
derive(Copy, Clone, Debug, PartialEq). -/
inductive TimeUnit : Type where
  | Seconds : TimeUnit
  | Minutes : TimeUnit
  | Hours : TimeUnit
  | Days : TimeUnit
  | Months : TimeUnit
  | Years : TimeUnit
deriving DecidableEq

/-- The derived `PartialEq` on the fieldless enum `TimeUnit`: two values
compare equal exactly when they are the same variant. -/
def timeUnitEq : TimeUnit → TimeUnit → Bool
  | .Seconds, .Seconds => true
  | .Minutes, .Minutes => true
  | .Hours, .Hours => true
  | .Days, .Days => true
  | .Months, .Months => true
  | .Years, .Years => true
  | _, _ => false

/-- The method `TimeUnit::plural` from src/src/main.rs lines 105-114. -/
def TimeUnit.plural : TimeUnit → String
  | .Seconds => "seconds"
  | .Minutes => "minutes"
  | .Hours => "hours"
  | .Days => "days"
  | .Months => "months"
  | .Years => "years"

/-- Models Rust's `str::trim_right_matches` with a `char` pattern:
repeatedly removes the trailing character while it equals the pattern. -/
def trimRightMatchesChar (s : String) (c : Char) : String :=
  String.mk ((s.toList.reverse.dropWhile (fun x => x == c)).reverse)

/-- The method `TimeUnit::singular` from src/src/main.rs lines 117-119:
`self.plural().trim_right_matches('s')`. -/
def TimeUnit.singular (u : TimeUnit) : String :=
  trimRightMatchesChar u.plural 's'

/-- The enum `RoughTime` from src/src/main.rs lines 129-134, with
derive(Copy, Clone, Debug, PartialEq); the `u32` payloads are modelled
as `Nat`. -/
inductive RoughTime : Type where
  | InThePast : TimeUnit → Nat → RoughTime
  | JustNow : RoughTime
  | InTheFuture : TimeUnit → Nat → RoughTime
deriving DecidableEq

/-- Discriminant of a `RoughTime` value, in declaration order. -/
def rtDiscr : RoughTime → Nat
  | .InThePast _ _ => 0
  | .JustNow => 1
  | .InTheFuture _ _ => 2

/-- The derived `PartialEq` on `RoughTime`: matching variants compare their
payload fields componentwise (using `TimeUnit`'s derived equality and
integer equality), any two different variants compare unequal. -/
def roughTimeEq : RoughTime → RoughTime → Bool
  | .InThePast u n, .InThePast v m => timeUnitEq u v && n == m
  | .JustNow, .JustNow => true
  | .InTheFuture u n, .InTheFuture v m => timeUnitEq u v && n == m
  | _, _ => false

/-- Componentwise payload comparison for two `RoughTime` values of the same
variant; vacuously true when the variants differ (the discriminant check is
separate). -/
def rtPayloadEq : RoughTime → RoughTime → Bool
  | .InThePast u n, .InThePast v m => timeUnitEq u v && n == m
  | .InTheFuture u n, .InTheFuture v m => timeUnitEq u v && n == m
  | _, _ => true

/-- The generic enum `BinaryTree<T>` from src/src/main.rs lines 213-216
together with the struct `TreeNode<T>` from lines 219-223: a tree is Empty
or NonEmpty with a boxed node holding an element and the left and right
subtrees.  The `Box` indirection and the `TreeNode` struct are inlined into
the NonEmpty constructor (element, left, right). -/
inductive BinaryTree (α : Type) : Type where
  | Empty : BinaryTree α
  | NonEmpty : α → BinaryTree α → BinaryTree α → BinaryTree α
deriving DecidableEq

/-- Modelled from the spec: the source announces `tree.add(planet)` but its
body is not in the file.  Spec 4.3 `insert(tree, value)`: on Empty, return a
new Node with the value and two Empty children; on a Node, compare the value
with the element under the total order, recurse into the left subtree and
replace it if less, recurse into the right subtree and replace it if
greater-or-equal (duplicates go right), rebuilding functionally. -/
def insert {α : Type} [LinearOrder α] : BinaryTree α → α → BinaryTree α
  | .Empty, v => .NonEmpty v .Empty .Empty
  | .NonEmpty e l r, v =>
    if v < e then .NonEmpty e (insert l v) r
    else .NonEmpty e l (insert r v)

/-- Modelled from the spec: the tree lookup is not in the source file.
Spec 4.3 `contains(tree, value)`: traversal comparing at each Node and
recursing left/right per the same total order used by insert, returning
found/not-found. -/
def contains {α : Type} [LinearOrder α] : BinaryTree α → α → Bool
  | .Empty, _ => false
  | .NonEmpty e l r, v =>
    if v < e then contains l v
    else if e < v then contains r v
    else true

/-- Modelled from the spec: the traversal is not in the source file.
Spec 4.3 `in_order(tree)`: the finite sequence of elements obtained by
structural recursion, left subtree first, then the element, then the right
subtree. -/
def in_order {α : Type} : BinaryTree α → List α
  | .Empty => []
  | .NonEmpty e l r => in_order l ++ e :: in_order r

/-- Number of Node values in a tree. -/
def size {α : Type} : BinaryTree α → Nat
  | .Empty => 0
  | .NonEmpty _ l r => size l + size r + 1

/-- Inserting every element of the list, left to right, into the empty tree
(the loop `for planet in planets { tree.add(planet) }` of the source). -/
def fromList {α : Type} [LinearOrder α] (xs : List α) : BinaryTree α :=
  xs.foldl insert BinaryTree.Empty

/-- The predicate holds at every element stored in the tree. -/
def ForAllT {α : Type} (p : α → Prop) : BinaryTree α → Prop
  | .Empty => True
  | .NonEmpty e l r => p e ∧ ForAllT p l ∧ ForAllT p r

/-- The search-tree invariant matching the insert policy: at every Node,
elements of the left subtree are strictly less than the element and elements
of the right subtree are greater or equal (duplicates live right). -/
inductive BST {α : Type} [LinearOrder α] : BinaryTree α → Prop where
  | empty : BST BinaryTree.Empty
  | node {e : α} {l r : BinaryTree α} :
      ForAllT (fun x => x < e) l →
      ForAllT (fun x => e ≤ x) r →
      BST l → BST r → BST (BinaryTree.NonEmpty e l r)

/-- The enum `Json` from src/src/main.rs lines 177-184.  The `f64` payload
of Number is modelled as `Int` (no arithmetic is performed on it; only
structural equality, which the spec takes at face value), `Vec<Json>` as
`List Json`, and `Box<HashMap<String, Json>>` as an association list of
key/value pairs (a `HashMap` additionally keeps its keys unique, which the
well-formedness predicate below captures). -/
inductive Json : Type where
  | Null : Json
  | Boolean : Bool → Json
  | Number : Int → Json
  | Str : String → Json
  | Array : List Json → Json
  | Object : List (String × Json) → Json

/-- First binding of a key in an object payload (a `HashMap` holds at most
one binding per key, so on well-formed values this is the lookup). -/
def lookupJ (k : String) : List (String × Json) → Option Json
  | [] => none
  | (k2, w) :: rest => if k == k2 then some w else lookupJ k rest

mutual

/-- Modelled from the spec: the source declares `Json` without deriving an
equality, and spec 4.4 defines it.  Structural recursive equality: two
Array values are equal iff same length and elementwise equal in order; two
Object values are equal iff same key set and equal value per key (key order
irrelevant), here phrased as mutual containment of bindings. -/
def jsonEq : Json → Json → Bool
  | .Null, .Null => true
  | .Boolean a, .Boolean b => a == b
  | .Number a, .Number b => a == b
  | .Str a, .Str b => a == b
  | .Array xs, .Array ys => jsonListEq xs ys
  | .Object a, .Object b => objSub a b && objSub b a
  | _, _ => false
termination_by a b => sizeOf a + sizeOf b

/-- Elementwise, order-sensitive equality of two Array payloads. -/
def jsonListEq : List Json → List Json → Bool
  | [], [] => true
  | x :: xs, y :: ys => jsonEq x y && jsonListEq xs ys
  | _, _ => false
termination_by xs ys => sizeOf xs + sizeOf ys

/-- Every binding of the first object payload has a matching binding in the
second. -/
def objSub : List (String × Json) → List (String × Json) → Bool
  | [], _ => true
  | (k, v) :: rest, b => findEq k v b && objSub rest b
termination_by a b => sizeOf a + sizeOf b

/-- The first binding of the key in the object payload carries a value
equal to the given one. -/
def findEq (k : String) (v : Json) : List (String × Json) → Bool
  | [] => false
  | (k2, w) :: rest => if k == k2 then jsonEq v w else findEq k v rest
termination_by b => sizeOf v + sizeOf b

end

/-- Keys of a list of bindings are pairwise distinct, matching the
uniqueness a `HashMap` enforces. -/
def nodupKeys : List (String × Json) → Bool
  | [] => true
  | (k, _) :: rest => !(rest.map Prod.fst).contains k && nodupKeys rest

mutual

/-- A `Json` value is well formed when every Object payload in it, at any
depth, has pairwise-distinct keys — exactly the values representable by the
Rust type, whose objects are `HashMap`s. -/
def Json.WF : Json → Bool
  | .Null => true
  | .Boolean _ => true
  | .Number _ => true
  | .Str _ => true
  | .Array xs => jsonListWF xs
  | .Object kvs => nodupKeys kvs && objWF kvs
termination_by j => sizeOf j

/-- All elements of an Array payload are well formed. -/
def jsonListWF : List Json → Bool
  | [] => true
  | x :: xs => Json.WF x && jsonListWF xs
termination_by xs => sizeOf xs

/-- All values of an Object payload are well formed. -/
def objWF : List (String × Json) → Bool
  | [] => true
  | (_, v) :: rest => Json.WF v && objWF rest
termination_by kvs => sizeOf kvs

end

/-! ## Theorems -/

/-- Boolean equality on `TimeUnit` agrees with propositional equality. -/
theorem timeUnitEq_iff (a b : TimeUnit) : timeUnitEq a b = true ↔ a = b := by
  cases a <;> cases b <;> simp [timeUnitEq]

/-- C9: for all integers n and m, `compare n m` returns Less iff n < m,
Greater iff n > m, and Equal iff n = m. -/
theorem compare_trichotomy (n m : Int) :
    (compare n m = Ordering.Less ↔ n < m) ∧
    (compare n m = Ordering.Greater ↔ n > m) ∧
    (compare n m = Ordering.Equal ↔ n = m) := by
  rcases lt_trichotomy n m with h | h | h
  · have h1 : ¬ m < n := lt_asymm h
    have h2 : n ≠ m := ne_of_lt h
    simp [compare, h, h1, h2]
  · subst h
    simp [compare, lt_irrefl]
  · have h1 : ¬ n < m := lt_asymm h
    have h2 : n ≠ m := (ne_of_lt h).symm
    simp [compare, h, h1, h2]

/-- C4: converting any `HttpStatus` variant to its integer code and back
yields the variant again; in particular code 404 converts to NotFound. -/
theorem http_status_roundtrip :
    (∀ v : HttpStatus, http_status_from_u32 v.toCode = some v) ∧
    http_status_from_u32 404 = some HttpStatus.NotFound := by
  exact ⟨fun v => by cases v <;> rfl, rfl⟩

/-- C5: every code outside the assigned set 200, 304, 404 converts to None
(the conversion is a total function, so it cannot panic); in particular
code 500 converts to None. -/
theorem http_status_unassigned_none (c : Nat)
    (h : c ≠ 200 ∧ c ≠ 304 ∧ c ≠ 404) :
    http_status_from_u32 c = none ∧ http_status_from_u32 500 = none := by
  obtain ⟨h1, h2, h3⟩ := h
  refine ⟨?_, rfl⟩
  unfold http_status_from_u32
  split <;> simp_all

/-- C5 witness: the theorem applied at the concrete code 500. -/
theorem http_status_unassigned_none_witness : http_status_from_u32 500 = none :=
  (http_status_unassigned_none 500 (by decide)).1

/-- C6: variant-to-code conversion is total (a function) and returns each
variant's assigned code: `Ordering` variants get auto-assigned discriminants
0, 1, 2 in declaration order, and `HttpStatus` variants keep their explicit
codes 200, 304, 404. -/
theorem to_code_assignment :
    Ordering.discriminant Ordering.Less = 0 ∧
    Ordering.discriminant Ordering.Equal = 1 ∧
    Ordering.discriminant Ordering.Greater = 2 ∧
    HttpStatus.toCode HttpStatus.Ok = 200 ∧
    HttpStatus.toCode HttpStatus.NotModified = 304 ∧
    HttpStatus.toCode HttpStatus.NotFound = 404 := by
  decide

/-- C7: derived equality on Variant Values compares discriminant and
payloads: for `TimeUnit` and `RoughTime`, a == b holds iff the
discriminants agree and the payloads are structurally equal (equivalently,
iff a and b are the same value), and values with different discriminants
are always unequal. -/
theorem variant_value_eq (a b : RoughTime) :
    (∀ u v : TimeUnit, timeUnitEq u v = true ↔ u = v) ∧
    (roughTimeEq a b = true ↔ (rtDiscr a = rtDiscr b ∧ rtPayloadEq a b = true)) ∧
    (roughTimeEq a b = true ↔ a = b) ∧
    (rtDiscr a ≠ rtDiscr b → roughTimeEq a b = false) := by
  refine ⟨timeUnitEq_iff, ?_, ?_, ?_⟩ <;>
    cases a <;> cases b <;>
    simp [roughTimeEq, rtDiscr, rtPayloadEq, timeUnitEq_iff]

/-- C7 witness: the theorem applied to two concrete values of different
variants, whose different discriminants force inequality. -/
theorem variant_value_eq_witness :
    roughTimeEq RoughTime.JustNow (RoughTime.InThePast TimeUnit.Seconds 3) = false :=
  (variant_value_eq RoughTime.JustNow (RoughTime.InThePast TimeUnit.Seconds 3)).2.2.2
    (by decide)

/-- C10: for every `TimeUnit` variant, singular is plural with its single
trailing letter s removed, so singular concatenated with "s" recovers
plural; both functions are total (they cannot panic). -/
theorem singular_plural :
    (∀ u : TimeUnit, TimeUnit.singular u ++ "s" = TimeUnit.plural u) ∧
    TimeUnit.plural TimeUnit.Seconds = "seconds" ∧
    TimeUnit.singular TimeUnit.Seconds = "second" := by
  exact ⟨fun u => by cases u <;> decide, rfl, by decide⟩

/-- Inserting a value satisfying a predicate preserves `ForAllT`. -/
theorem forAllT_insert {α : Type} [LinearOrder α] {p : α → Prop}
    {t : BinaryTree α} {v : α} (h : ForAllT p t) (hv : p v) :
    ForAllT p (insert t v) := by
  induction t with
  | Empty => exact ⟨hv, trivial, trivial⟩
  | NonEmpty e l r ihl ihr =>
    obtain ⟨he, hl, hr⟩ := h
    by_cases hc : v < e
    · simpa [insert, hc, ForAllT] using ⟨he, ihl hl, hr⟩
    · simpa [insert, hc, ForAllT] using ⟨he, hl, ihr hr⟩

/-- Insert preserves the search-tree invariant. -/
theorem bst_insert {α : Type} [LinearOrder α] {t : BinaryTree α}
    (h : BST t) (v : α) : BST (insert t v) := by
  induction h with
  | empty => exact .node trivial trivial .empty .empty
  | @node e l r hfl hfr hbl hbr ihl ihr =>
    by_cases hc : v < e
    · simpa [insert, hc] using BST.node (forAllT_insert hfl hc) hfr ihl hbr
    · simpa [insert, hc] using
        BST.node hfl (forAllT_insert hfr (le_of_not_lt hc)) hbl ihr

/-- Every element of the in-order traversal satisfies a `ForAllT`
predicate. -/
theorem forAllT_mem_in_order {α : Type} {p : α → Prop}
    {t : BinaryTree α} (h : ForAllT p t) : ∀ x ∈ in_order t, p x := by
  induction t with
  | Empty => simp [in_order]
  | NonEmpty e l r ihl ihr =>
    obtain ⟨he, hl, hr⟩ := h
    intro x hx
    rcases List.mem_append.mp hx with hxl | hxm
    · exact ihl hl x hxl
    · rcases List.mem_cons.mp hxm with rfl | hxr
      · exact he
      · exact ihr hr x hxr

/-- The in-order traversal of a tree satisfying the search-tree invariant
is sorted (non-decreasing). -/
theorem sorted_in_order {α : Type} [LinearOrder α] {t : BinaryTree α}
    (h : BST t) : List.Sorted (fun x y => x ≤ y) (in_order t) := by
  induction h with
  | empty => simp [in_order]
  | @node e l r hfl hfr hbl hbr ihl ihr =>
    rw [in_order]
    refine List.pairwise_append.mpr
      ⟨ihl, List.pairwise_cons.mpr
        ⟨fun b hb => forAllT_mem_in_order hfr b hb, ihr⟩, ?_⟩
    · intro x hx y hy
      have hxe : x < e := forAllT_mem_in_order hfl x hx
      rcases List.mem_cons.mp hy with rfl | hyr
      · exact le_of_lt hxe
      · exact le_of_lt (lt_of_lt_of_le hxe (forAllT_mem_in_order hfr y hyr))

/-- Folding insert over a list preserves the search-tree invariant. -/
theorem bst_foldl {α : Type} [LinearOrder α] (xs : List α) :
    ∀ t : BinaryTree α, BST t → BST (xs.foldl insert t) := by
  induction xs with
  | nil => exact fun t h => h
  | cons x xs ih => exact fun t h => ih (insert t x) (bst_insert h x)

/-- Insert grows the node count by exactly one. -/
theorem size_insert {α : Type} [LinearOrder α] (t : BinaryTree α) (v : α) :
    size (insert t v) = size t + 1 := by
  induction t with
  | Empty => rfl
  | NonEmpty e l r ihl ihr =>
    by_cases hc : v < e <;> simp [insert, hc, size, ihl, ihr] <;> omega

/-- The in-order traversal lists exactly as many elements as the tree has
nodes. -/
theorem length_in_order {α : Type} (t : BinaryTree α) :
    (in_order t).length = size t := by
  induction t with
  | Empty => rfl
  | NonEmpty e l r ihl ihr => simp [in_order, size, ihl, ihr]; omega

/-- Folding insert over a list adds one node per list element. -/
theorem size_foldl {α : Type} [LinearOrder α] (xs : List α) :
    ∀ t : BinaryTree α, size (xs.foldl insert t) = size t + xs.length := by
  induction xs with
  | nil => simp
  | cons x xs ih => intro t; simp [ih, size_insert]; omega

/-- C1: inserting any sequence of values into an initially empty Ordered
Tree makes the in-order traversal non-decreasing under the order; in
particular inserting 5, 3, 8, 1, 4 into an empty integer tree makes it
yield 1, 3, 4, 5, 8. -/
theorem in_order_fromList_sorted {α : Type} [LinearOrder α] (xs : List α) :
    List.Sorted (fun x y => x ≤ y) (in_order (fromList xs)) ∧
    in_order (fromList ([5, 3, 8, 1, 4] : List Int)) = [1, 3, 4, 5, 8] := by
  exact ⟨sorted_in_order (bst_foldl xs BinaryTree.Empty .empty), by decide⟩

/-- C2: a tree into which a value was just inserted contains that value;
inserting into the Empty tree returns a Node holding the value with two
Empty children. -/
theorem contains_insert {α : Type} [LinearOrder α] (t : BinaryTree α) (v : α) :
    contains (insert t v) v = true ∧
    insert (BinaryTree.Empty : BinaryTree α) v =
      BinaryTree.NonEmpty v BinaryTree.Empty BinaryTree.Empty := by
  refine ⟨?_, rfl⟩
  induction t with
  | Empty => simp [insert, contains, lt_irrefl]
  | NonEmpty e l r ihl ihr =>
    by_cases hc : v < e
    · simp [insert, hc, contains, ihl]
    · by_cases hc2 : e < v
      · simp [insert, hc, contains, hc2, ihr]
      · simp [insert, hc, contains, hc2]

/-- C3: insert is not idempotent for duplicates: every insert grows the
node count by exactly one, a value equal to the node's element goes into
the right subtree, and after inserting a list of n values the in-order
traversal has length n. -/
theorem insert_not_idempotent {α : Type} [LinearOrder α] :
    (∀ (t : BinaryTree α) (v : α), size (insert t v) = size t + 1) ∧
    (∀ (e : α) (l r : BinaryTree α),
      insert (BinaryTree.NonEmpty e l r) e = BinaryTree.NonEmpty e l (insert r e)) ∧
    (∀ xs : List α, (in_order (fromList xs)).length = xs.length) := by
  refine ⟨size_insert, fun e l r => by simp [insert, lt_irrefl], fun xs => ?_⟩
  rw [length_in_order, fromList, size_foldl]
  simp [size]

theorem beqSymm {α : Type} [BEq α] [LawfulBEq α] (a b : α) : (a == b) = (b == a) := by
  rw [Bool.eq_iff_iff]
  constructor <;> intro h <;> simp [beq_iff_eq] at h ⊢ <;> exact h.symm

theorem json_sizeOf_pos (a : Json) : 0 < sizeOf a := by
  cases a <;> simp

theorem jsonListEq_comm_of : ∀ xs ys : List Json,
    (∀ x ∈ xs, ∀ y ∈ ys, jsonEq x y = jsonEq y x) →
    jsonListEq xs ys = jsonListEq ys xs := by
  intro xs
  induction xs with
  | nil => intro ys h; cases ys <;> simp [jsonListEq]
  | cons x xs ih =>
    intro ys h
    cases ys with
    | nil => simp [jsonListEq]
    | cons y ys =>
      simp only [jsonListEq]
      rw [h x (List.mem_cons_self x xs) y (List.mem_cons_self y ys),
        ih ys (fun a ha b hb =>
          h a (List.mem_cons_of_mem x ha) b (List.mem_cons_of_mem y hb))]

theorem jsonEq_symm_bounded : ∀ (n : Nat) (a b : Json),
    sizeOf a + sizeOf b ≤ n → jsonEq a b = jsonEq b a := by
  intro n
  induction n with
  | zero =>
    intro a b h
    exfalso
    have := json_sizeOf_pos a
    have := json_sizeOf_pos b
    omega
  | succ n ih =>
    intro a b h
    cases a <;> cases b <;> simp only [jsonEq] <;> try rfl
    case Boolean.Boolean x y => exact beqSymm x y
    case Number.Number x y => exact beqSymm x y
    case Str.Str x y => exact beqSymm x y
    case Array.Array xs ys =>
      apply jsonListEq_comm_of
      intro x hx y hy
      apply ih
      have h1 := List.sizeOf_lt_of_mem hx
      have h2 := List.sizeOf_lt_of_mem hy
      simp at h
      omega
    case Object.Object a b => exact Bool.and_comm _ _


theorem sizeOf_snd_lt_of_mem {p : String × Json} {kvs : List (String × Json)}
    (h : p ∈ kvs) : sizeOf p.2 < sizeOf kvs := by
  have h1 := List.sizeOf_lt_of_mem h
  obtain ⟨k, v⟩ := p
  simp at h1 ⊢
  omega

theorem jsonListEq_refl_of {xs : List Json} (h : ∀ x ∈ xs, jsonEq x x = true) :
    jsonListEq xs xs = true := by
  induction xs with
  | nil => simp [jsonListEq]
  | cons x xs ih =>
    simp [jsonListEq, h x (List.mem_cons_self x xs),
      ih fun y hy => h y (List.mem_cons_of_mem x hy)]

theorem jsonListWF_mem {xs : List Json} (h : jsonListWF xs = true)
    {x : Json} (hx : x ∈ xs) : Json.WF x = true := by
  induction xs with
  | nil => simp at hx
  | cons y ys ih =>
    rw [jsonListWF, Bool.and_eq_true] at h
    rcases List.mem_cons.mp hx with rfl | hxr
    · exact h.1
    · exact ih h.2 hxr

theorem objWF_mem {kvs : List (String × Json)} (h : objWF kvs = true)
    {p : String × Json} (hp : p ∈ kvs) : Json.WF p.2 = true := by
  induction kvs with
  | nil => simp at hp
  | cons q rest ih =>
    obtain ⟨k, v⟩ := q
    rw [objWF, Bool.and_eq_true] at h
    rcases List.mem_cons.mp hp with rfl | hpr
    · exact h.1
    · exact ih h.2 hpr

theorem findEq_of_mem {k : String} {v : Json} {kvs : List (String × Json)}
    (hmem : (k, v) ∈ kvs) (hnd : nodupKeys kvs = true) (hv : jsonEq v v = true) :
    findEq k v kvs = true := by
  induction kvs with
  | nil => simp at hmem
  | cons p rest ih =>
    obtain ⟨k2, w⟩ := p
    rw [nodupKeys, Bool.and_eq_true, Bool.not_eq_true'] at hnd
    rcases List.mem_cons.mp hmem with heq | hmemr
    · rw [Prod.mk.injEq] at heq
      obtain ⟨rfl, rfl⟩ := heq
      simp [findEq, hv]
    · have hk : ¬ k = k2 := by
        intro hkk
        subst hkk
        have hnd1 := hnd.1
        simp at hnd1
        exact hnd1 v hmemr
      have hbeq : (k == k2) = false := by simp [hk]
      simp [findEq, hbeq, ih hmemr hnd.2]

theorem objSub_of_forall {a b : List (String × Json)}
    (h : ∀ p ∈ a, findEq p.1 p.2 b = true) : objSub a b = true := by
  induction a with
  | nil => simp [objSub]
  | cons q rest ih =>
    obtain ⟨k, v⟩ := q
    simp [objSub, h (k, v) (List.mem_cons_self _ _),
      ih fun p hp => h p (List.mem_cons_of_mem _ hp)]

theorem jsonEq_refl_bounded : ∀ (n : Nat) (a : Json),
    sizeOf a ≤ n → Json.WF a = true → jsonEq a a = true := by
  intro n
  induction n with
  | zero =>
    intro a h _
    exfalso
    have := json_sizeOf_pos a
    omega
  | succ n ih =>
    intro a ha hwf
    cases a with
    | Null => simp [jsonEq]
    | Boolean b => simp [jsonEq]
    | Number m => simp [jsonEq]
    | Str s => simp [jsonEq]
    | Array xs =>
      rw [jsonEq]
      apply jsonListEq_refl_of
      intro x hx
      rw [Json.WF] at hwf
      refine ih x ?_ (jsonListWF_mem hwf hx)
      have h1 := List.sizeOf_lt_of_mem hx
      simp at ha
      omega
    | Object kvs =>
      rw [Json.WF, Bool.and_eq_true] at hwf
      rw [jsonEq]
      have hsub : objSub kvs kvs = true := by
        apply objSub_of_forall
        intro p hp
        obtain ⟨k, v⟩ := p
        apply findEq_of_mem hp hwf.1
        refine ih v ?_ (objWF_mem hwf.2 hp)
        have h1 := sizeOf_snd_lt_of_mem hp
        simp at ha h1
        omega
      simp [hsub]


theorem findEq_iff {k : String} {v : Json} {b : List (String × Json)} :
    findEq k v b = true ↔ ∃ w, lookupJ k b = some w ∧ jsonEq v w = true := by
  induction b with
  | nil => simp [findEq, lookupJ]
  | cons p rest ih =>
    obtain ⟨k2, w2⟩ := p
    by_cases hk : k = k2
    · subst hk
      simp [findEq, lookupJ]
    · have hbeq : (k == k2) = false := by simp [hk]
      simp [findEq, lookupJ, hbeq, ih]

theorem lookupJ_mem {k : String} {b : List (String × Json)} {w : Json}
    (h : lookupJ k b = some w) : (k, w) ∈ b := by
  induction b with
  | nil => simp [lookupJ] at h
  | cons p rest ih =>
    obtain ⟨k2, w2⟩ := p
    by_cases hk : k = k2
    · subst hk
      simp [lookupJ] at h
      subst h
      exact List.mem_cons_self _ _
    · have hbeq : (k == k2) = false := by simp [hk]
      simp [lookupJ, hbeq] at h
      exact List.mem_cons_of_mem _ (ih h)

theorem objSub_mem {a b : List (String × Json)} (h : objSub a b = true) :
    ∀ p ∈ a, findEq p.1 p.2 b = true := by
  induction a with
  | nil => intro p hp; simp at hp
  | cons q rest ih =>
    obtain ⟨k, v⟩ := q
    rw [objSub, Bool.and_eq_true] at h
    intro p hp
    rcases List.mem_cons.mp hp with rfl | hpr
    · exact h.1
    · exact ih h.2 p hpr

theorem jsonListEq_trans_of : ∀ xs ys zs : List Json,
    (∀ x ∈ xs, ∀ y ∈ ys, ∀ z ∈ zs,
      jsonEq x y = true → jsonEq y z = true → jsonEq x z = true) →
    jsonListEq xs ys = true → jsonListEq ys zs = true → jsonListEq xs zs = true := by
  intro xs
  induction xs with
  | nil =>
    intro ys zs h h1 h2
    cases ys <;> cases zs <;> simp_all [jsonListEq]
  | cons x xs ih =>
    intro ys zs h h1 h2
    cases ys with
    | nil => simp [jsonListEq] at h1
    | cons y ys =>
      cases zs with
      | nil => simp [jsonListEq] at h2
      | cons z zs =>
        rw [jsonListEq, Bool.and_eq_true] at h1 h2 ⊢
        refine ⟨h x (List.mem_cons_self x xs) y (List.mem_cons_self y ys)
          z (List.mem_cons_self z zs) h1.1 h2.1, ih ys zs ?_ h1.2 h2.2⟩
        intro a ha b hb c hc
        exact h a (List.mem_cons_of_mem x ha) b (List.mem_cons_of_mem y hb)
          c (List.mem_cons_of_mem z hc)

theorem jsonEq_trans_bounded : ∀ (n : Nat) (a b c : Json),
    sizeOf a + sizeOf b + sizeOf c ≤ n →
    jsonEq a b = true → jsonEq b c = true → jsonEq a c = true := by
  intro n
  induction n with
  | zero =>
    intro a b c h _ _
    exfalso
    have := json_sizeOf_pos a
    have := json_sizeOf_pos b
    have := json_sizeOf_pos c
    omega
  | succ n ih =>
    intro a b c h hab hbc
    cases a <;> cases b <;> (try (simp [jsonEq] at hab)) <;>
      cases c <;> (try (simp [jsonEq] at hbc)) <;>
      (try (simp_all [jsonEq]; done))
    case Array.Array.Array xs ys zs =>
      simp only [jsonEq]
      apply jsonListEq_trans_of xs ys zs ?_ hab hbc
      intro x hx y hy z hz h1 h2
      apply ih x y z ?_ h1 h2
      have s1 := List.sizeOf_lt_of_mem hx
      have s2 := List.sizeOf_lt_of_mem hy
      have s3 := List.sizeOf_lt_of_mem hz
      simp at h
      omega
    case Object.Object.Object a b c =>
      obtain ⟨hab1, hab2⟩ := hab
      obtain ⟨hbc1, hbc2⟩ := hbc
      simp only [jsonEq, Bool.and_eq_true]
      constructor
      · apply objSub_of_forall
        intro p hp
        obtain ⟨k, v⟩ := p
        have h1 := objSub_mem hab1 (k, v) hp
        rw [findEq_iff] at h1
        obtain ⟨w, hw, hvw⟩ := h1
        have hwb : (k, w) ∈ b := lookupJ_mem hw
        have h2 := objSub_mem hbc1 (k, w) hwb
        rw [findEq_iff] at h2
        obtain ⟨u, hu, hwu⟩ := h2
        have hvu : jsonEq v u = true := by
          apply ih v w u ?_ hvw hwu
          have s1 := sizeOf_snd_lt_of_mem hp
          have s2 := sizeOf_snd_lt_of_mem hwb
          have s3 := sizeOf_snd_lt_of_mem (lookupJ_mem hu)
          simp at h s1 s2 s3
          omega
        rw [findEq_iff]
        exact ⟨u, hu, hvu⟩
      · apply objSub_of_forall
        intro p hp
        obtain ⟨k, u⟩ := p
        have h1 := objSub_mem hbc2 (k, u) hp
        rw [findEq_iff] at h1
        obtain ⟨w, hw, huw⟩ := h1
        have hwb : (k, w) ∈ b := lookupJ_mem hw
        have h2 := objSub_mem hab2 (k, w) hwb
        rw [findEq_iff] at h2
        obtain ⟨v, hv2, hwv⟩ := h2
        have huv : jsonEq u v = true := by
          apply ih u w v ?_ huw hwv
          have s1 := sizeOf_snd_lt_of_mem hp
          have s2 := sizeOf_snd_lt_of_mem hwb
          have s3 := sizeOf_snd_lt_of_mem (lookupJ_mem hv2)
          simp at h s1 s2 s3
          omega
        rw [findEq_iff]
        exact ⟨v, hv2, huv⟩

/-- C8: structural equality on the Heterogeneous Tree Value `Json` is an
equivalence relation — reflexive on every well-formed value (an Object's
keys are unique, as a `HashMap` enforces), symmetric and transitive on all
values — with Array equality order-sensitive and Object equality
key-order-insensitive. -/
theorem json_structural_equivalence :
    (∀ a : Json, Json.WF a = true → jsonEq a a = true) ∧
    (∀ a b : Json, jsonEq a b = jsonEq b a) ∧
    (∀ a b c : Json,
      jsonEq a b = true → jsonEq b c = true → jsonEq a c = true) ∧
    jsonEq (Json.Array [Json.Number 1, Json.Number 2])
      (Json.Array [Json.Number 2, Json.Number 1]) = false ∧
    jsonEq (Json.Object [("a", Json.Number 1), ("b", Json.Number 2)])
      (Json.Object [("b", Json.Number 2), ("a", Json.Number 1)]) = true := by
  refine ⟨fun a hwf => jsonEq_refl_bounded (sizeOf a) a le_rfl hwf,
    fun a b => jsonEq_symm_bounded (sizeOf a + sizeOf b) a b le_rfl,
    fun a b c =>
      jsonEq_trans_bounded (sizeOf a + sizeOf b + sizeOf c) a b c le_rfl,
    by simp [jsonEq, jsonListEq],
    by simp [jsonEq, objSub, findEq]⟩

/-- C8 witness: reflexivity applied to a concrete well-formed object and
transitivity applied to concrete equal values. -/
theorem json_structural_equivalence_witness :
    jsonEq (Json.Object [("a", Json.Number 1), ("b", Json.Number 2)])
      (Json.Object [("a", Json.Number 1), ("b", Json.Number 2)]) = true ∧
    jsonEq (Json.Number 3) (Json.Number 3) = true := by
  constructor
  · exact json_structural_equivalence.1 _ (by simp [Json.WF, nodupKeys, objWF])
  · exact json_structural_equivalence.2.2.1 (Json.Number 3) (Json.Number 3)
      (Json.Number 3) (by simp [jsonEq]) (by simp [jsonEq])

end RustEnums
